import Mathlib

/-!
Verification development for the sniffer-bot execution pipeline.

Shallow embedding of the execution-critical components of the repository:
the index-slot (nonce) manager, the candidate buffer, the buy engine
(sell operation, buy-result handling, backoff state) and the multi-endpoint
RPC broadcaster.  Rust machine floats (f64) are modelled exactly by the
rationals, u64 and usize by Nat, Pubkey by Nat, Instant by a Nat tick count;
fallible operations return Except, and the tokio-level interleavings are
modelled as sequences of atomic operations on explicit state (every mutation
in the source happens under a mutex or on a single thread, so atomic steps
are faithful).
-/

namespace SnifferBot

/-! ## Slot manager (src/main/bot/src/nonce_manager.rs)

State of IndexSlotManager / NonceManagerInner.  The semaphore is modelled by
its number of available permits; the free VecDeque by a list whose head is
the front; the allocated HashSet by a list of indices; `held` is the ghost
multiset of indices currently held by live holders (one element per holder),
used to state the exclusivity invariant. -/

structure SlotState where
  capacity : Nat
  permits : Nat
  free : List Nat
  allocated : List Nat
  held : List Nat
  deriving DecidableEq, Repr

namespace SlotState

/-- IndexSlotManager::new: free = [0, .., capacity), semaphore at capacity. -/
def new (capacity : Nat) : SlotState :=
  { capacity := capacity
    permits := capacity
    free := List.range capacity
    allocated := []
    held := [] }

/-- One operation on the manager: legacy acquire_nonce, legacy release_nonce,
lease-based acquire_index, lease-based release_index. -/
inductive Op where
  | acquireNonce
  | releaseNonce (idx : Nat)
  | acquireIndex
  | releaseIndex (idx : Nat)
  deriving DecidableEq, Repr

/-- Shared body of acquire_nonce and NonceManagerInner::acquire_index.
A blocked acquire (no available permit) does not fire, i.e. leaves state
unchanged.  When a permit is available the code pops the front of `free`;
on the empty-queue error path the popped permit is returned on drop; on the
out-of-range error path the index has already been popped and the permit is
returned on drop; on success the index is inserted into `allocated`, the
permit is forgotten, and the caller becomes a holder of the index. -/
def acquireStep (s : SlotState) : SlotState :=
  if s.permits = 0 then s
  else
    match s.free with
    | [] => s
    | idx :: rest =>
      if s.capacity ≤ idx then
        { s with free := rest }
      else
        { s with
            permits := s.permits - 1
            free := rest
            allocated := if idx ∈ s.allocated then s.allocated else idx :: s.allocated
            held := s.held ++ [idx] }

/-- IndexSlotManager::release_nonce: unconditionally pushes the index to the
back of `free` and adds one permit; the allocated set is not consulted.
The ghost `held` loses one occurrence of the index if a holder was actually
releasing it (List.erase removes nothing when the index is not held). -/
def releaseNonceStep (s : SlotState) (idx : Nat) : SlotState :=
  { s with
      free := s.free ++ [idx]
      permits := s.permits + 1
      held := s.held.erase idx }

/-- NonceManagerInner::release_index: only releases when the index is in the
allocated set, otherwise returns an error and changes nothing. -/
def releaseIndexStep (s : SlotState) (idx : Nat) : SlotState :=
  if idx ∈ s.allocated then
    { s with
        allocated := s.allocated.erase idx
        free := s.free ++ [idx]
        permits := s.permits + 1
        held := s.held.erase idx }
  else s

def step (s : SlotState) : Op → SlotState
  | .acquireNonce => s.acquireStep
  | .releaseNonce idx => s.releaseNonceStep idx
  | .acquireIndex => s.acquireStep
  | .releaseIndex idx => s.releaseIndexStep idx

/-- Run a sequence of operations from a state. -/
def run (s : SlotState) (ops : List Op) : SlotState :=
  ops.foldl step s

end SlotState

/-- The concrete failing trace for the double-release bug: capacity 1,
acquire the only slot, release it twice through the legacy API, then
acquire twice. -/
def doubleReleaseTrace : List SlotState.Op :=
  [SlotState.Op.acquireNonce,
   SlotState.Op.releaseNonce 0,
   SlotState.Op.releaseNonce 0,
   SlotState.Op.acquireNonce,
   SlotState.Op.acquireNonce]

/-! ## Candidate buffer (src/main/bot/src/candidate_buffer.rs)

Pubkey is modelled by Nat, Instant by a Nat tick, Duration by a Nat number
of ticks (Instant::duration_since is truncated subtraction).  The HashMap
keyed by mint is modelled by an association list kept in insertion order
(iteration order of the HashMap is never observable: it is only used to
collect the expired key set); the VecDeque insertion_order by a list whose
head is the front.  The metrics calls are side-effect free for the state
and are omitted. -/

structure PremintCandidate where
  mint : Nat
  creator : Nat
  program : String
  slot : Nat
  timestamp : Nat
  instruction_summary : Option String
  is_jito_bundle : Option Bool
  deriving DecidableEq, Repr

structure CandidateBuffer where
  /-- map : HashMap mint (candidate, seen_at, sequence) -/
  map : List (Nat × (PremintCandidate × Nat × Nat))
  /-- insertion_order : VecDeque (mint, sequence), head = front -/
  insertion_order : List (Nat × Nat)
  ttl : Nat
  max_size : Nat
  sequence : Nat
  deriving DecidableEq, Repr

namespace CandidateBuffer

/-- CandidateBuffer::new: a max_size of zero is normalized to one. -/
def new (ttl maxSize : Nat) : CandidateBuffer :=
  { map := []
    insertion_order := []
    ttl := ttl
    max_size := if maxSize = 0 then 1 else maxSize
    sequence := 0 }

/-- CandidateBuffer::cleanup at instant `now`: with a zero TTL everything is
cleared; otherwise the keys whose entries satisfy
now.duration_since(seen_at) >= ttl are collected and removed from the map,
and insertion_order retains the pairs whose key is not expired.  Returns the
number of removed entries and the new buffer. -/
def cleanup (b : CandidateBuffer) (now : Nat) : Nat × CandidateBuffer :=
  if b.ttl = 0 then
    (b.map.length, { b with map := [], insertion_order := [] })
  else
    let expired : List Nat :=
      (b.map.filter (fun e => b.ttl ≤ now - e.2.2.1)).map Prod.fst
    let map' := b.map.filter (fun e => !(expired.contains e.1))
    let order' := b.insertion_order.filter (fun p => !(expired.contains p.1))
    (b.map.length - map'.length, { b with map := map', insertion_order := order' })

/-- The capacity-eviction step of CandidateBuffer::push: clone the front of
insertion_order, remove that key from the map and pop the front. -/
def evictOldest (b : CandidateBuffer) : CandidateBuffer :=
  match b.insertion_order.head? with
  | some (oldestKey, _seq) =>
    { b with
        map := b.map.filter (fun e => !(e.1 == oldestKey))
        insertion_order := b.insertion_order.tail }
  | none => b

/-- CandidateBuffer::push after its initial cleanup call: drop duplicates
by mint, evict the front of insertion_order when at capacity, then insert
with the next sequence number. -/
def pushCore (b : CandidateBuffer) (c : PremintCandidate) (now : Nat) :
    Bool × CandidateBuffer :=
  if b.map.any (fun e => e.1 == c.mint) then
    (false, b)
  else
    let b :=
      if b.max_size ≤ b.map.length ∧ 0 < b.max_size then b.evictOldest
      else b
    let seq := b.sequence + 1
    (true,
     { b with
         sequence := seq
         map := b.map ++ [(c.mint, (c, now, seq))]
         insertion_order := b.insertion_order ++ [(c.mint, seq)] })

/-- CandidateBuffer::push at instant `now`: cleanup first, then the core
insert. -/
def push (b : CandidateBuffer) (c : PremintCandidate) (now : Nat) :
    Bool × CandidateBuffer :=
  pushCore (b.cleanup now).2 c now

/-- Loop body of CandidateBuffer::pop_best: pop the front of
insertion_order; HashMap::remove returns the stored entry and deletes it;
when the stored sequence matches, return the candidate, otherwise keep
scanning.  Returns (result, map, insertion_order). -/
def popLoop :
    List (Nat × Nat) → List (Nat × (PremintCandidate × Nat × Nat)) →
    Option PremintCandidate × List (Nat × (PremintCandidate × Nat × Nat)) × List (Nat × Nat)
  | [], m => (none, m, [])
  | (oldestKey, seq) :: rest, m =>
    match m.lookup oldestKey with
    | some (cand, _time, storedSeq) =>
      let m' := m.filter (fun e => !(e.1 == oldestKey))
      if storedSeq == seq then (some cand, m', rest)
      else popLoop rest m'
    | none => popLoop rest m

/-- CandidateBuffer::pop_best at instant `now`. -/
def popBest (b : CandidateBuffer) (now : Nat) :
    Option PremintCandidate × CandidateBuffer :=
  let b := (b.cleanup now).2
  let r := popLoop b.insertion_order b.map
  (r.1, { b with map := r.2.1, insertion_order := r.2.2 })

/-- Push a whole list of candidates, all at instant `now`. -/
def pushAll (b : CandidateBuffer) (cs : List PremintCandidate) (now : Nat) :
    CandidateBuffer :=
  cs.foldl (fun b c => (b.push c now).2) b

/-- Pop `n` times at instant 0, collecting the returned candidates in
order. -/
def popN (b : CandidateBuffer) : Nat → List PremintCandidate × CandidateBuffer
  | 0 => ([], b)
  | n + 1 =>
    let r := b.popBest 0
    let r' := r.2.popN n
    (r.1.toList ++ r'.1, r'.2)

/-- The projection from a map entry to its insertion_order pair. -/
def proj (e : Nat × (PremintCandidate × Nat × Nat)) : Nat × Nat :=
  (e.1, e.2.2.2)

/-- Buffers reachable from `new` by the three operations. -/
inductive Reachable : CandidateBuffer → Prop
  | new (ttl maxSize : Nat) : Reachable (CandidateBuffer.new ttl maxSize)
  | push (b : CandidateBuffer) (c : PremintCandidate) (now : Nat) :
      Reachable b → Reachable (b.push c now).2
  | popBest (b : CandidateBuffer) (now : Nat) :
      Reachable b → Reachable (b.popBest now).2
  | cleanup (b : CandidateBuffer) (now : Nat) :
      Reachable b → Reachable (b.cleanup now).2

/-- Structural invariant of the buffer: insertion_order is exactly the
image of the map under `proj`, the mints in the map are pairwise distinct,
the map never exceeds max_size, and max_size is at least one. -/
def SInv (b : CandidateBuffer) : Prop :=
  b.insertion_order = b.map.map proj ∧
  (b.map.map Prod.fst).Nodup ∧
  b.map.length ≤ b.max_size ∧
  1 ≤ b.max_size

/-- The exact-correspondence invariant of the claim: every (mint, sequence)
pair of insertion_order has a matching map entry and conversely, each mint
occurs at most once on both sides, and the map size is bounded by
max_size. -/
def MapOrderCorrespondence (b : CandidateBuffer) : Prop :=
  (∀ p ∈ b.insertion_order, ∃ c t, (p.1, (c, t, p.2)) ∈ b.map) ∧
  (∀ e ∈ b.map, (e.1, e.2.2.2) ∈ b.insertion_order) ∧
  (b.map.map Prod.fst).Nodup ∧
  (b.insertion_order.map Prod.fst).Nodup ∧
  b.map.length ≤ b.max_size

/-- The canonical buffer obtained by pushing the distinct candidates `cs`
into a fresh buffer of capacity `K` at instant 0: the surviving entries are
the last min(|cs|, K) of `cs`, with sequence numbers counted from 1. -/
def canonHeld (cs : List PremintCandidate) (K : Nat) : List (Nat × PremintCandidate) :=
  (List.enumFrom 1 cs).drop (cs.length - K)

def canonBuf (ttl K : Nat) (cs : List PremintCandidate) : CandidateBuffer :=
  { map := (canonHeld cs K).map (fun p => (p.2.mint, (p.2, 0, p.1)))
    insertion_order := (canonHeld cs K).map (fun p => (p.2.mint, p.1))
    ttl := ttl
    max_size := K
    sequence := cs.length }

end CandidateBuffer

/-! ## Application state and buy engine (src/main/bot/src/types.rs,
src/main/bot/src/buy_engine.rs, src/main/bot/src/security.rs)

f64 is modelled exactly by the rationals: the claims only involve clamping,
one product, and comparisons, and the source and the specification use the
same arithmetic expressions, so the exact model is applied to both sides
uniformly.  There is no NaN or infinity among the rationals, so the
is_finite branch of the validator never fires in the model. -/

inductive Mode where
  | Sniffing
  | PassiveToken (mint : Nat)
  | QuantumManual
  deriving DecidableEq, Repr

structure AppState where
  mode : Mode
  active_token : Option PremintCandidate
  last_buy_price : Option ℚ
  holdings_percent : ℚ
  /-- GUI suggestion list; its element type is irrelevant to every modelled
  operation (nothing in the embedded code reads or writes it). -/
  quantum_suggestions : List Nat
  deriving DecidableEq, Repr

/-- SecurityValidator::validate_holdings_percent.  The is_finite check of
the source cannot fail over the exact rationals. -/
def validate_holdings_percent (percent : ℚ) : Except String ℚ :=
  if percent < 0 then .error "Holdings percent cannot be negative"
  else if 1 < percent then .error "Holdings percent cannot exceed 100%"
  else .ok percent

/-- f64::EPSILON, the threshold of the fully-sold test in BuyEngine::sell. -/
def f64Epsilon : ℚ := 1 / 2 ^ 52

/-- BuyEngine::get_execution_price_mock. -/
def get_execution_price_mock (_c : PremintCandidate) : ℚ := 1 / 1000000

/-- BuyEngine::sell.  `pending` is the value the pending_buy atomic flag
shows at the load; `buildResult` is the outcome of
create_sell_transaction; `broadcastResult` is the outcome of
RpcBroadcaster::send_on_many_rpc on the sell transaction (the environment
resolves both).  The result pairs the application state after the call
(the code mutates the shared state only in the broadcast-success branch)
with the returned value. -/
def sell (pending : Bool) (st : AppState) (percent : ℚ)
    (buildResult : Except String Unit) (broadcastResult : Except String Nat) :
    AppState × Except String Unit :=
  match validate_holdings_percent (min (max percent 0) 1) with
  | .error _e => (st, .error "Invalid sell percentage")
  | .ok pct =>
    if pending then (st, .error "buy operation in progress")
    else
      match st.mode with
      | .Sniffing => (st, .error "not in PassiveToken mode")
      | .QuantumManual => (st, .error "not in PassiveToken mode")
      | .PassiveToken _mint =>
        match st.active_token with
        | none => (st, .error "no active token in AppState")
        | some _candidate =>
          match validate_holdings_percent (max (st.holdings_percent * (1 - pct)) 0) with
          | .error _e => (st, .error "Holdings calculation error")
          | .ok newHoldings =>
            match buildResult with
            | .error e => (st, .error e)
            | .ok _ =>
              match broadcastResult with
              | .ok _sig =>
                let st1 := { st with holdings_percent := newHoldings }
                if st1.holdings_percent ≤ f64Epsilon then
                  ({ st1 with
                       mode := .Sniffing
                       active_token := none
                       last_buy_price := none }, .ok ())
                else (st1, .ok ())
              | .error e => (st, .error e)

/-- The state and backoff update BuyEngine::run applies once try_buy has
returned, for a candidate accepted while Sniffing: on success the backoff
counter is reset (record_success) and the state moves to PassiveToken with
holdings_percent = 1, the candidate recorded and the mock execution price
recorded; on failure the loop only logs and stays in Sniffing — no call to
record_failure appears on that path, so the failure counter is returned
unchanged. -/
def handleBuyResult (st : AppState) (failures : Nat) (c : PremintCandidate)
    (result : Except String Nat) : AppState × Nat :=
  match result with
  | .ok _sig =>
    ({ st with
         mode := .PassiveToken c.mint
         active_token := some c
         last_buy_price := some (get_execution_price_mock c)
         holdings_percent := 1 }, 0)
  | .error _e => (st, failures)

/-! ### Backoff state (BuyEngine, src/main/bot/src/buy_engine.rs lines 34 to 86) -/

structure BackoffState where
  consecutive_failures : Nat
  last_failure : Option Nat
  base_delay_ms : Nat
  max_delay_ms : Nat
  backoff_multiplier : ℚ
  deriving DecidableEq, Repr

namespace BackoffState

/-- BackoffState::new. -/
def new : BackoffState :=
  { consecutive_failures := 0
    last_failure := none
    base_delay_ms := 100
    max_delay_ms := 10000
    backoff_multiplier := 2 }

/-- BackoffState::record_failure at instant `now`. -/
def record_failure (b : BackoffState) (now : Nat) : BackoffState :=
  { b with consecutive_failures := b.consecutive_failures + 1, last_failure := some now }

/-- BackoffState::record_success. -/
def record_success (b : BackoffState) : BackoffState :=
  { b with consecutive_failures := 0, last_failure := none }

/-- BackoffState::should_backoff: none with zero failures, otherwise the
delay min(base * multiplier ^ (failures - 1), max) in milliseconds.  For
the constants installed by `new` the f64 computation and the u64 cast of
the source are exact, so the rational value is the delay itself. -/
def should_backoff (b : BackoffState) : Option ℚ :=
  if b.consecutive_failures = 0 then none
  else
    some (min ((b.base_delay_ms : ℚ) * b.backoff_multiplier ^ (b.consecutive_failures - 1))
              (b.max_delay_ms : ℚ))

/-- The delay owed at failure count `n` for the constants of `new`
(0 when no delay is owed). -/
def delayAt (n : Nat) : ℚ :=
  (should_backoff { new with consecutive_failures := n }).getD 0

end BackoffState

/-! ## RPC broadcaster (src/main/bot/src/rpc_manager.rs, src/main/bot/src/config.rs)

Transactions are opaque; endpoints are strings. -/

inductive BroadcastMode where
  | Pairwise
  | Replicate
  | RoundRobin
  | FullFanout
  deriving DecidableEq, Repr

/-- The task-planning part of RpcManager::send_on_many_rpc: with no
endpoint or no transaction the call returns an error at once and spawns
nothing; otherwise one task per i < min(endpoints, txs) is spawned, pairing
endpoints[i] with txs[i]. -/
def send_on_many_rpcPlan (endpoints : List String) (txs : List Nat) :
    Except String (List (String × Nat)) :=
  if endpoints.isEmpty || txs.isEmpty then
    .error "send_on_many_rpc: no endpoints or no transactions to send"
  else
    .ok (endpoints.zip txs)

/-- Modelled from the spec: the per-strategy task generation
(create_pairwise_tasks, create_replicate_tasks, create_round_robin_tasks,
create_fanout_tasks) is missing from src — only the BroadcastMode
declaration in config.rs and the tests that call the generators are
present.  Per the spec: Pairwise pairs transaction[i] with endpoint[i] for
i < min(count); Replicate sends the single best transaction to all
endpoints; RoundRobin distributes transactions cyclically across
endpoints; FullFanout sends every transaction to every endpoint.  The
strategy is an argument of the call. -/
def generateBroadcastTasks (mode : BroadcastMode) (txs : List Nat)
    (endpoints : List String) : List (Nat × String) :=
  match mode with
  | .Pairwise => txs.zip endpoints
  | .Replicate =>
    match txs.head? with
    | some best => endpoints.map (fun e => (best, e))
    | none => []
  | .RoundRobin =>
    if endpoints.isEmpty then []
    else txs.enum.map (fun p => (p.2, endpoints.getD (p.1 % endpoints.length) ""))
  | .FullFanout => txs.flatMap (fun t => endpoints.map (fun e => (t, e)))

/-! ## Concrete values used by the witness theorems -/

def cand (i : Nat) : PremintCandidate :=
  { mint := i
    creator := i + 1
    program := "pump.fun"
    slot := 0
    timestamp := 0
    instruction_summary := none
    is_jito_bundle := none }

def stSniffing : AppState :=
  { mode := .Sniffing
    active_token := none
    last_buy_price := none
    holdings_percent := 0
    quantum_suggestions := [] }

def stHolding : AppState :=
  { mode := .PassiveToken 1
    active_token := some (cand 1)
    last_buy_price := some (1 / 1000000)
    holdings_percent := 1
    quantum_suggestions := [] }

/-! ## Theorems -/

/-- Claim C1 fails on the code: with capacity 1, acquiring the only slot,
releasing it twice through the legacy release_nonce and then acquiring
twice hands index 0 to two concurrent holders, because release_nonce
returns the index to the free queue and adds a permit without consulting
the allocated set.  The ghost held multiset of the final state is [0, 0],
which is not pairwise distinct. -/
theorem c1_double_legacy_release_violates_exclusivity :
    (SlotState.run (SlotState.new 1) doubleReleaseTrace).held = [0, 0] ∧
    ¬ (SlotState.run (SlotState.new 1) doubleReleaseTrace).held.Nodup := by
  constructor
  · decide
  · decide

/-- Claim C10: send_on_many_rpc called with an empty transaction list or an
empty endpoint list returns an error immediately and plans no broadcast
task. -/
theorem c10_empty_inputs_error (endpoints : List String) (txs : List Nat)
    (h : endpoints = [] ∨ txs = []) :
    ∃ msg, send_on_many_rpcPlan endpoints txs = .error msg := by
  refine ⟨"send_on_many_rpc: no endpoints or no transactions to send", ?_⟩
  unfold send_on_many_rpcPlan
  rcases h with h | h <;> subst h <;> simp

theorem c10_empty_inputs_error_witness :
    ∃ msg, send_on_many_rpcPlan [] [5] = Except.error msg :=
  c10_empty_inputs_error [] [5] (Or.inl rfl)

lemma length_fanout (txs : List Nat) (endpoints : List String) :
    (txs.flatMap (fun t => endpoints.map (fun e => (t, e)))).length
      = txs.length * endpoints.length := by
  induction txs with
  | nil => simp
  | cons t rest ih => simp [ih, Nat.succ_mul, Nat.add_comm]

/-- Claim C5: the Pairwise strategy plans exactly min(N, M) tasks pairing
transaction[i] with endpoint[i]; Replicate plans one task per endpoint, all
carrying the single best transaction; FullFanout plans N times M tasks; and
the source send_on_many_rpc spawns exactly the pairwise min(N, M) tasks
when both lists are nonempty.  The strategy is an argument of the
generator, hence selectable per call. -/
theorem c5_broadcast_task_counts (txs : List Nat) (endpoints : List String) :
    (generateBroadcastTasks .Pairwise txs endpoints).length
        = min txs.length endpoints.length ∧
    (∀ i (h1 : i < txs.length) (h2 : i < endpoints.length)
        (h3 : i < (generateBroadcastTasks .Pairwise txs endpoints).length),
      (generateBroadcastTasks .Pairwise txs endpoints).get ⟨i, h3⟩
        = (txs.get ⟨i, h1⟩, endpoints.get ⟨i, h2⟩)) ∧
    (∀ best rest, txs = best :: rest →
      (generateBroadcastTasks .Replicate txs endpoints).length = endpoints.length ∧
      ∀ p ∈ generateBroadcastTasks .Replicate txs endpoints, p.1 = best) ∧
    (generateBroadcastTasks .FullFanout txs endpoints).length
        = txs.length * endpoints.length ∧
    (endpoints ≠ [] → txs ≠ [] →
      send_on_many_rpcPlan endpoints txs = .ok (endpoints.zip txs) ∧
      (endpoints.zip txs).length = min txs.length endpoints.length) := by
  refine ⟨?_, ?_, ?_, ?_, ?_⟩
  · simp [generateBroadcastTasks]
  · intro i h1 h2 h3
    simp [generateBroadcastTasks, List.get_eq_getElem, List.getElem_zip]
  · intro best rest h
    subst h
    constructor
    · simp [generateBroadcastTasks]
    · intro p hp
      simp only [generateBroadcastTasks, List.head?_cons, List.mem_map] at hp
      obtain ⟨e, _, rfl⟩ := hp
      rfl
  · simpa [generateBroadcastTasks] using length_fanout txs endpoints
  · intro h1 h2
    constructor
    · unfold send_on_many_rpcPlan
      simp [h1, h2]
    · simp [Nat.min_comm]

theorem c5_broadcast_task_counts_witness :
    (generateBroadcastTasks .Pairwise [10, 11] ["a", "b", "c"]).length = 2 ∧
    (generateBroadcastTasks .Replicate [10, 11] ["a", "b", "c"]).length = 3 ∧
    (generateBroadcastTasks .FullFanout [10, 11] ["a", "b", "c"]).length = 6 ∧
    send_on_many_rpcPlan ["a", "b", "c"] [10, 11]
      = .ok [("a", 10), ("b", 11)] := by
  have h := c5_broadcast_task_counts [10, 11] ["a", "b", "c"]
  refine ⟨by simpa using h.1, ?_, by simpa using h.2.2.2.1, ?_⟩
  · simpa using (h.2.2.1 10 [11] rfl).1
  · simpa using (h.2.2.2.2 (by decide) (by decide)).1

/-- The delay owed at failure count n equals, for the constants of
BackoffState::new, none at 0 and min(100 * 2 ^ (n - 1), 10000)
otherwise. -/
lemma delayAt_eq (n : Nat) :
    BackoffState.delayAt n
      = if n = 0 then 0 else min (100 * 2 ^ (n - 1) : ℚ) 10000 := by
  unfold BackoffState.delayAt BackoffState.should_backoff BackoffState.new
  rcases n with _ | m <;> simp

/-- Claim C8: no backoff delay is owed at zero consecutive failures; at
n >= 1 failures the delay is min(base * multiplier ^ (n - 1), max) which
for the constants of new is min(100 * 2 ^ (n - 1), 10000); the delay is
non-decreasing in the failure count and never exceeds the configured
maximum; and record_success resets the failure count to zero. -/
theorem c8_backoff_delay (n k : Nat) :
    BackoffState.should_backoff BackoffState.new = none ∧
    (1 ≤ n →
      BackoffState.should_backoff { BackoffState.new with consecutive_failures := n }
        = some (min (100 * 2 ^ (n - 1) : ℚ) 10000)) ∧
    (n ≤ k → BackoffState.delayAt n ≤ BackoffState.delayAt k) ∧
    BackoffState.delayAt n ≤ 10000 ∧
    (BackoffState.record_success
        { BackoffState.new with consecutive_failures := n }).consecutive_failures = 0 := by
  have hval : ∀ m : Nat, (0 : ℚ) ≤ min (100 * 2 ^ m : ℚ) 10000 := by
    intro m
    have h2 : (0 : ℚ) ≤ 100 * 2 ^ m := by positivity
    exact le_min h2 (by norm_num)
  refine ⟨by simp [BackoffState.should_backoff, BackoffState.new], ?_, ?_, ?_, rfl⟩
  · intro hn
    have : n ≠ 0 := Nat.one_le_iff_ne_zero.mp hn
    simp [BackoffState.should_backoff, BackoffState.new, this]
  · intro hnk
    rw [delayAt_eq, delayAt_eq]
    rcases Nat.eq_zero_or_pos n with h0 | hpos
    · subst h0
      rw [if_pos rfl]
      by_cases hk : k = 0
      · rw [if_pos hk]
      · rw [if_neg hk]
        exact hval (k - 1)
    · have hn : n ≠ 0 := Nat.pos_iff_ne_zero.mp hpos
      have hk : k ≠ 0 := by omega
      rw [if_neg hn, if_neg hk]
      have hpow : (2 : ℚ) ^ (n - 1) ≤ 2 ^ (k - 1) :=
        pow_le_pow_right₀ (by norm_num) (by omega)
      exact min_le_min (by linarith) (le_refl _)
  · rw [delayAt_eq]
    split
    · norm_num
    · exact le_trans (min_le_right _ _) (by norm_num)

theorem c8_backoff_delay_witness :
    BackoffState.should_backoff
        { BackoffState.new with consecutive_failures := 3 }
      = some 400 ∧
    BackoffState.delayAt 3 ≤ BackoffState.delayAt 9 ∧
    BackoffState.delayAt 9 ≤ 10000 := by
  have h := c8_backoff_delay 3 9
  refine ⟨?_, h.2.2.1 (by decide), (c8_backoff_delay 9 9).2.2.2.1⟩
  have h2 := h.2.1 (by decide)
  rw [h2]
  norm_num

/-- The clamped percentage always passes validate_holdings_percent. -/
lemma validate_clamp_ok (p : ℚ) :
    validate_holdings_percent (min (max p 0) 1) = .ok (min (max p 0) 1) := by
  unfold validate_holdings_percent
  rw [if_neg, if_neg]
  · exact not_lt.mpr (min_le_right _ _)
  · exact not_lt.mpr (le_min (le_max_right p 0) zero_le_one)

/-- Claim C2: sell fails and changes nothing when the pending-buy flag is
set, and likewise when the mode is Sniffing or QuantumManual. -/
theorem c2_sell_rejected_pending_or_wrong_mode (st : AppState) (percent : ℚ)
    (build : Except String Unit) (bres : Except String Nat) (pending : Bool) :
    sell true st percent build bres = (st, .error "buy operation in progress") ∧
    (st.mode = .Sniffing ∨ st.mode = .QuantumManual →
      (sell pending st percent build bres).1 = st ∧
      ∃ e, (sell pending st percent build bres).2 = .error e) := by
  have hclamp := validate_clamp_ok percent
  constructor
  · unfold sell
    rw [hclamp]
    rfl
  · intro hmode
    cases pending
    · have hs : sell false st percent build bres
          = (st, .error "not in PassiveToken mode") := by
        unfold sell
        rcases hmode with h | h <;> rw [hclamp, h] <;> rfl
      rw [hs]
      exact ⟨rfl, _, rfl⟩
    · have hs : sell true st percent build bres
          = (st, .error "buy operation in progress") := by
        unfold sell
        rw [hclamp]
        rfl
      rw [hs]
      exact ⟨rfl, _, rfl⟩

theorem c2_sell_rejected_pending_or_wrong_mode_witness :
    sell true stHolding (1 / 2) (.ok ()) (.ok 7)
      = (stHolding, .error "buy operation in progress") ∧
    (sell false stSniffing (1 / 2) (.ok ()) (.ok 7)).1 = stSniffing ∧
    ∃ e, (sell false stSniffing (1 / 2) (.ok ()) (.ok 7)).2 = Except.error e := by
  refine ⟨(c2_sell_rejected_pending_or_wrong_mode stHolding (1 / 2) (.ok ()) (.ok 7) true).1, ?_, ?_⟩
  · exact ((c2_sell_rejected_pending_or_wrong_mode stSniffing (1 / 2) (.ok ()) (.ok 7) false).2 (Or.inl rfl)).1
  · exact ((c2_sell_rejected_pending_or_wrong_mode stSniffing (1 / 2) (.ok ()) (.ok 7) false).2 (Or.inl rfl)).2

/-- Claim C3: in PassiveToken (Holding) with an active token and
holdings_percent in [0, 1], sell clamps the requested percent into [0, 1];
on broadcast success it commits holdings to current * (1 - clamped) and
moves to Sniffing, clearing the token and the price, exactly when the new
holdings are at most f64::EPSILON; on broadcast failure the error is
returned and the state is unchanged. -/
theorem c3_sell_holding_commit_and_failure (st : AppState) (percent : ℚ)
    (m : Nat) (c : PremintCandidate) (sig : Nat) (err : String)
    (hmode : st.mode = .PassiveToken m) (htok : st.active_token = some c)
    (h0 : 0 ≤ st.holdings_percent) (h1 : st.holdings_percent ≤ 1) :
    sell false st percent (.ok ()) (.ok sig)
      = (if st.holdings_percent * (1 - min (max percent 0) 1) ≤ f64Epsilon then
           { st with
               holdings_percent := st.holdings_percent * (1 - min (max percent 0) 1)
               mode := .Sniffing
               active_token := none
               last_buy_price := none }
         else
           { st with
               holdings_percent := st.holdings_percent * (1 - min (max percent 0) 1) },
         .ok ()) ∧
    sell false st percent (.ok ()) (.error err) = (st, .error err) := by
  have hpct0 : (0 : ℚ) ≤ min (max percent 0) 1 :=
    le_min (le_max_right percent 0) zero_le_one
  have hpct1 : min (max percent 0) 1 ≤ 1 := min_le_right _ _
  have hprod0 : (0 : ℚ) ≤ st.holdings_percent * (1 - min (max percent 0) 1) :=
    mul_nonneg h0 (by linarith)
  have hprod1 : st.holdings_percent * (1 - min (max percent 0) 1) ≤ 1 := by
    calc st.holdings_percent * (1 - min (max percent 0) 1)
        ≤ 1 * 1 := by
          apply mul_le_mul h1 (by linarith) (by linarith) zero_le_one
      _ = 1 := one_mul 1
  have hmax : max (st.holdings_percent * (1 - min (max percent 0) 1)) 0
      = st.holdings_percent * (1 - min (max percent 0) 1) := max_eq_left hprod0
  have hvalidate :
      validate_holdings_percent
          (max (st.holdings_percent * (1 - min (max percent 0) 1)) 0)
        = .ok (st.holdings_percent * (1 - min (max percent 0) 1)) := by
    rw [hmax]
    unfold validate_holdings_percent
    rw [if_neg (not_lt.mpr hprod0), if_neg (not_lt.mpr hprod1)]
  have hclamp := validate_clamp_ok percent
  constructor
  · unfold sell
    rw [hclamp, hmode, htok]
    simp only [hvalidate, Bool.false_eq_true, if_false]
    split <;> rfl
  · unfold sell
    rw [hclamp, hmode, htok]
    simp only [hvalidate, Bool.false_eq_true, if_false]

theorem c3_sell_holding_commit_and_failure_witness :
    sell false stHolding (1 / 2) (.ok ()) (.ok 7)
      = ({ stHolding with holdings_percent := 1 / 2 }, .ok ()) ∧
    sell false stHolding 1 (.ok ()) (.ok 7)
      = ({ stHolding with
             holdings_percent := 0
             mode := .Sniffing
             active_token := none
             last_buy_price := none }, .ok ()) ∧
    sell false stHolding (1 / 2) (.ok ()) (.error "broadcast failed")
      = (stHolding, .error "broadcast failed") := by
  have hhalf := c3_sell_holding_commit_and_failure stHolding (1 / 2) 1 (cand 1) 7
    "broadcast failed" rfl rfl (by norm_num [stHolding]) (by norm_num [stHolding])
  have hone := c3_sell_holding_commit_and_failure stHolding 1 1 (cand 1) 7
    "broadcast failed" rfl rfl (by norm_num [stHolding]) (by norm_num [stHolding])
  have hcondHalf :
      ¬ (stHolding.holdings_percent * (1 - min (max (1 / 2 : ℚ) 0) 1) ≤ f64Epsilon) := by
    norm_num [stHolding, f64Epsilon]
  have hcondOne :
      stHolding.holdings_percent * (1 - min (max (1 : ℚ) 0) 1) ≤ f64Epsilon := by
    norm_num [stHolding, f64Epsilon]
  refine ⟨?_, ?_, hhalf.2⟩
  · rw [hhalf.1, if_neg hcondHalf]
    norm_num [stHolding]
  · rw [hone.1, if_pos hcondOne]
    norm_num [stHolding]

/-- Claim C4 fails on the code in its failure half: the success path of
BuyEngine::run does move Sniffing to PassiveToken with holdings_percent 1,
the candidate recorded, the mock execution price recorded and the failure
counter reset to 0, but the failure path only logs and leaves the failure
counter unchanged — record_failure is never invoked there — so the counter
stays 0 instead of being incremented to 1. -/
theorem c4_failed_buy_leaves_failure_count_unchanged :
    handleBuyResult stSniffing 0 (cand 1) (.error "broadcast BUY failed")
      = (stSniffing, 0) ∧
    handleBuyResult stSniffing 0 (cand 1) (.ok 7)
      = ({ mode := .PassiveToken 1
           active_token := some (cand 1)
           last_buy_price := some (1 / 1000000)
           holdings_percent := 1
           quantum_suggestions := [] }, 0) := by
  exact ⟨rfl, rfl⟩

namespace CandidateBuffer

/-- Removing a key that does not occur leaves an association list
unchanged. -/
lemma filter_key_eq_self {β : Type} (l : List (Nat × β)) (k : Nat)
    (h : k ∉ l.map Prod.fst) : l.filter (fun e => !(e.1 == k)) = l := by
  induction l with
  | nil => rfl
  | cons e t ih =>
    simp only [List.map_cons, List.mem_cons, not_or] at h
    have hne : (e.1 == k) = false := by
      simp only [beq_eq_false_iff_ne]
      exact fun hex => h.1 hex.symm
    rw [List.filter_cons, if_pos (by simp [hne]), ih h.2]

/-- Removing the head key of an association list with pairwise-distinct
keys removes exactly the head. -/
lemma filter_cons_head {β : Type} (e : Nat × β) (t : List (Nat × β))
    (h : e.1 ∉ t.map Prod.fst) :
    (e :: t).filter (fun x => !(x.1 == e.1)) = t := by
  rw [List.filter_cons, if_neg (by simp), filter_key_eq_self t e.1 h]

/-- Looking up the head key of an association list finds the head value. -/
lemma lookup_cons_head {β : Type} (e : Nat × β) (t : List (Nat × β)) :
    (e :: t).lookup e.1 = some e.2 := by
  obtain ⟨k, v⟩ := e
  simp [List.lookup]

/-- proj keeps the key, so filtering on the key commutes with the map. -/
lemma map_proj_filter (l : List (Nat × (PremintCandidate × Nat × Nat)))
    (f : Nat → Bool) :
    (l.filter (fun e => f e.1)).map proj = (l.map proj).filter (fun p => f p.1) := by
  induction l with
  | nil => rfl
  | cons e t ih =>
    rw [List.map_cons, List.filter_cons, List.filter_cons]
    by_cases hf : f e.1
    · rw [if_pos (by simpa [proj] using hf), if_pos (by simpa using hf),
        List.map_cons, ih]
    · rw [if_neg (by simpa [proj] using hf), if_neg (by simpa using hf), ih]

/-- cleanup removes entries from the map and insertion_order by one common
key predicate. -/
lemma cleanup_spec (b : CandidateBuffer) (now : Nat) :
    ∃ f : Nat → Bool,
      (b.cleanup now).2 = { b with
        map := b.map.filter (fun e => f e.1)
        insertion_order := b.insertion_order.filter (fun p => f p.1) } := by
  unfold cleanup
  by_cases h0 : b.ttl = 0
  · rw [if_pos h0]
    refine ⟨fun _ => false, ?_⟩
    simp
  · rw [if_neg h0]
    exact ⟨fun k =>
      !((b.map.filter (fun e => b.ttl ≤ now - e.2.2.1)).map Prod.fst).contains k, rfl⟩

/-- cleanup preserves the structural invariant. -/
lemma cleanup_sInv (b : CandidateBuffer) (now : Nat) (h : SInv b) :
    SInv (b.cleanup now).2 := by
  obtain ⟨hio, hnd, hlen, hmax⟩ := h
  obtain ⟨f, hf⟩ := cleanup_spec b now
  rw [hf]
  refine ⟨?_, ?_, ?_, hmax⟩
  · rw [hio, map_proj_filter]
  · exact ((List.filter_sublist _).map Prod.fst).nodup hnd
  · exact le_trans (List.length_filter_le _ _) hlen

/-- On a buffer whose entries were all inserted at instant 0, cleanup at
instant 0 with a positive TTL removes nothing. -/
lemma cleanup_noop (b : CandidateBuffer) (h1 : b.ttl ≠ 0)
    (h2 : ∀ e ∈ b.map, e.2.2.1 = 0) : (b.cleanup 0).2 = b := by
  unfold cleanup
  rw [if_neg h1]
  have hexp : b.map.filter (fun e => b.ttl ≤ 0 - e.2.2.1) = [] := by
    rw [List.filter_eq_nil_iff]
    intro e he
    have h3 := h2 e he
    simp [h3, Nat.le_zero, h1]
  simp only [hexp, List.map_nil]
  have hmap : b.map.filter (fun e => !(List.contains [] e.1)) = b.map := by
    apply List.filter_eq_self.mpr
    intro a _
    rfl
  have hord : b.insertion_order.filter (fun p => !(List.contains [] p.1))
      = b.insertion_order := by
    apply List.filter_eq_self.mpr
    intro a _
    rfl
  rw [hmap, hord]

/-- pushCore preserves the structural invariant. -/
lemma pushCore_sInv (b : CandidateBuffer) (c : PremintCandidate) (now : Nat)
    (h : SInv b) : SInv (pushCore b c now).2 := by
  obtain ⟨hio, hnd, hlen, hmax⟩ := h
  unfold pushCore
  by_cases hdup : b.map.any (fun e => e.1 == c.mint) = true
  · rw [if_pos hdup]
    exact ⟨hio, hnd, hlen, hmax⟩
  · rw [if_neg hdup]
    have hfresh : c.mint ∉ b.map.map Prod.fst := by
      intro hmem
      apply hdup
      rw [List.any_eq_true]
      obtain ⟨e, he, hfst⟩ := List.mem_map.mp hmem
      exact ⟨e, he, by simp [hfst]⟩
    by_cases hcap : b.max_size ≤ b.map.length ∧ 0 < b.max_size
    · rw [if_pos hcap]
      have hpos : 0 < b.map.length := lt_of_lt_of_le hcap.2 hcap.1
      obtain ⟨e, t, hmap⟩ : ∃ e t, b.map = e :: t := by
        cases hm : b.map with
        | nil =>
          rw [hm] at hpos
          simp at hpos
        | cons e t => exact ⟨e, t, rfl⟩
      have hndc : ((e :: t).map Prod.fst).Nodup := hmap ▸ hnd
      rw [List.map_cons] at hndc
      have hkey : e.1 ∉ t.map Prod.fst := (List.nodup_cons.mp hndc).1
      have hev : b.evictOldest = { b with map := t, insertion_order := t.map proj } := by
        unfold evictOldest
        rw [hio, hmap, List.map_cons]
        simp only [proj, List.head?_cons, List.tail_cons]
        rw [filter_cons_head e t hkey]
      rw [hev]
      have hfrt : c.mint ∉ t.map Prod.fst := by
        intro hmem
        exact hfresh (by rw [hmap, List.map_cons]; exact List.mem_cons_of_mem _ hmem)
      refine ⟨?_, ?_, ?_, hmax⟩
      · show t.map proj ++ [(c.mint, b.sequence + 1)]
          = (t ++ [(c.mint, (c, now, b.sequence + 1))]).map proj
        rw [List.map_append]
        rfl
      · show ((t ++ [(c.mint, (c, now, b.sequence + 1))]).map Prod.fst).Nodup
        rw [List.map_append, List.nodup_append]
        refine ⟨(List.nodup_cons.mp hndc).2, List.nodup_singleton _, ?_⟩
        intro a ha hb
        simp only [List.map_cons, List.map_nil, List.mem_singleton] at hb
        subst hb
        exact hfrt ha
      · show (t ++ [(c.mint, (c, now, b.sequence + 1))]).length ≤ b.max_size
        rw [List.length_append]
        have : (e :: t).length ≤ b.max_size := hmap ▸ hlen
        simpa using this
    · rw [if_neg hcap]
      have hlt : b.map.length < b.max_size := by
        rcases Nat.lt_or_ge b.map.length b.max_size with h1 | h1
        · exact h1
        · exact absurd ⟨h1, lt_of_lt_of_le one_pos hmax⟩ hcap
      refine ⟨?_, ?_, ?_, hmax⟩
      · show b.insertion_order ++ [(c.mint, b.sequence + 1)]
          = (b.map ++ [(c.mint, (c, now, b.sequence + 1))]).map proj
        rw [hio, List.map_append]
        rfl
      · show ((b.map ++ [(c.mint, (c, now, b.sequence + 1))]).map Prod.fst).Nodup
        rw [List.map_append, List.nodup_append]
        refine ⟨hnd, List.nodup_singleton _, ?_⟩
        intro a ha hb
        simp only [List.map_cons, List.map_nil, List.mem_singleton] at hb
        subst hb
        exact hfresh ha
      · show (b.map ++ [(c.mint, (c, now, b.sequence + 1))]).length ≤ b.max_size
        rw [List.length_append]
        simpa using hlt

/-- push preserves the structural invariant. -/
lemma push_sInv (b : CandidateBuffer) (c : PremintCandidate) (now : Nat)
    (h : SInv b) : SInv (b.push c now).2 :=
  pushCore_sInv _ c now (cleanup_sInv b now h)

/-- One unfolding of popLoop when the deque mirrors a map with
pairwise-distinct keys. -/
lemma popLoop_cons_of_nodup (e : Nat × (PremintCandidate × Nat × Nat))
    (t : List (Nat × (PremintCandidate × Nat × Nat)))
    (hnd : ((e :: t).map Prod.fst).Nodup) :
    popLoop ((e :: t).map proj) (e :: t) = (some e.2.1, t, t.map proj) := by
  rw [List.map_cons] at hnd
  have hkey : e.1 ∉ t.map Prod.fst := (List.nodup_cons.mp hnd).1
  obtain ⟨k, cand, time, seq⟩ := e
  simp only [List.map_cons, proj]
  rw [popLoop]
  rw [show ((k, cand, time, seq) :: t).lookup k = some (cand, time, seq) from
    lookup_cons_head (k, (cand, time, seq)) t]
  simp only [beq_self_eq_true, if_true]
  rw [filter_cons_head (k, (cand, time, seq)) t hkey]

/-- pop_best preserves the structural invariant. -/
lemma popBest_sInv (b : CandidateBuffer) (now : Nat) (h : SInv b) :
    SInv (b.popBest now).2 := by
  have h1 := cleanup_sInv b now h
  unfold popBest
  dsimp only
  obtain ⟨hio, hnd, hlen, hmax⟩ := h1
  cases hm : (b.cleanup now).2.map with
  | nil =>
    rw [hm] at hio hnd hlen
    rw [hio]
    exact ⟨rfl, List.nodup_nil, by simp [popLoop], hmax⟩
  | cons e t =>
    rw [hm] at hio hnd hlen
    rw [hio, popLoop_cons_of_nodup e t hnd]
    rw [List.map_cons] at hnd
    refine ⟨rfl, (List.nodup_cons.mp hnd).2, ?_, hmax⟩
    show t.length ≤ (b.cleanup now).2.max_size
    have h2 : (e :: t).length ≤ (b.cleanup now).2.max_size := hlen
    simp only [List.length_cons] at h2
    omega

/-- The fresh buffer satisfies the structural invariant. -/
lemma sInv_new (ttl maxSize : Nat) : SInv (new ttl maxSize) := by
  refine ⟨rfl, List.nodup_nil, Nat.zero_le _, ?_⟩
  unfold new
  dsimp only
  split <;> omega

/-- Every reachable buffer satisfies the structural invariant. -/
lemma sInv_reachable (b : CandidateBuffer) (h : Reachable b) : SInv b := by
  induction h with
  | new ttl maxSize => exact sInv_new ttl maxSize
  | push b c now _ ih => exact push_sInv b c now ih
  | popBest b now _ ih => exact popBest_sInv b now ih
  | cleanup b now _ ih => exact cleanup_sInv b now ih

end CandidateBuffer

/-- Claim C9: after every buffer operation, the map and insertion_order are
in exact correspondence — every (mint, sequence) pair of insertion_order
has a map entry under that mint carrying that sequence and vice versa,
each mint occurs at most once on both sides, and the map size never exceeds
max_size. -/
theorem c9_map_order_correspondence (b : CandidateBuffer)
    (h : CandidateBuffer.Reachable b) :
    CandidateBuffer.MapOrderCorrespondence b := by
  obtain ⟨hio, hnd, hlen, _hmax⟩ := CandidateBuffer.sInv_reachable b h
  refine ⟨?_, ?_, hnd, ?_, hlen⟩
  · intro p hp
    rw [hio] at hp
    obtain ⟨e, he, hpe⟩ := List.mem_map.mp hp
    refine ⟨e.2.1, e.2.2.1, ?_⟩
    have hep : (p.1, (e.2.1, (e.2.2.1, p.2))) = e := by
      obtain ⟨k, c0, t0, s0⟩ := e
      cases hpe
      rfl
    rw [hep]
    exact he
  · intro e he
    rw [hio]
    exact List.mem_map_of_mem CandidateBuffer.proj he
  · rw [hio, List.map_map]
    exact hnd

theorem c9_map_order_correspondence_witness :
    CandidateBuffer.MapOrderCorrespondence
      (((CandidateBuffer.new 10 2).push (cand 1) 0).2.push (cand 2) 0).2 :=
  c9_map_order_correspondence _
    (CandidateBuffer.Reachable.push _ (cand 2) 0
      (CandidateBuffer.Reachable.push _ (cand 1) 0
        (CandidateBuffer.Reachable.new 10 2)))

namespace CandidateBuffer

/-- The enumerated mints of a candidate list. -/
lemma enum_map_mint (cs : List PremintCandidate) :
    (List.enumFrom 1 cs).map (fun p => p.2.mint) = cs.map PremintCandidate.mint := by
  rw [show (fun p : Nat × PremintCandidate => p.2.mint)
      = (PremintCandidate.mint ∘ Prod.snd) from rfl, ← List.map_map,
    List.enumFrom_map_snd]

/-- The keys held by the canonical buffer are a suffix of the pushed
mints. -/
lemma canonHeld_keys (cs : List PremintCandidate) (K : Nat) :
    (canonHeld cs K).map (fun p => p.2.mint)
      = (cs.map PremintCandidate.mint).drop (cs.length - K) := by
  unfold canonHeld
  rw [List.map_drop, enum_map_mint]

lemma canonHeld_length (cs : List PremintCandidate) (K : Nat) :
    (canonHeld cs K).length = cs.length - (cs.length - K) := by
  unfold canonHeld
  rw [List.length_drop, List.enumFrom_length]

lemma canonHeld_small (cs : List PremintCandidate) (K : Nat)
    (h : cs.length ≤ K) : canonHeld cs K = List.enumFrom 1 cs := by
  unfold canonHeld
  rw [Nat.sub_eq_zero_of_le h, List.drop_zero]

lemma canonHeld_append_small (cs : List PremintCandidate) (c : PremintCandidate)
    (K : Nat) (h : cs.length + 1 ≤ K) :
    canonHeld (cs ++ [c]) K = List.enumFrom 1 cs ++ [(cs.length + 1, c)] := by
  unfold canonHeld
  rw [List.enumFrom_append]
  have hlen : (cs ++ [c]).length = cs.length + 1 := by simp
  rw [hlen, Nat.sub_eq_zero_of_le h, List.drop_zero]
  simp [Nat.add_comm]

lemma canonHeld_append_big (cs : List PremintCandidate) (c : PremintCandidate)
    (K : Nat) (hK : 1 ≤ K) (h : K ≤ cs.length) :
    canonHeld (cs ++ [c]) K = (canonHeld cs K).tail ++ [(cs.length + 1, c)] := by
  unfold canonHeld
  rw [List.tail_drop, List.enumFrom_append, List.drop_append_eq_append_drop]
  have hlen : (cs ++ [c]).length = cs.length + 1 := by simp
  have hm1 : (cs ++ [c]).length - K = (cs.length - K) + 1 := by
    rw [hlen]
    omega
  have hm2 : ((cs ++ [c]).length - K) - (List.enumFrom 1 cs).length = 0 := by
    rw [hlen, List.enumFrom_length]
    omega
  rw [hm2, hm1, List.drop_zero]
  simp [Nat.add_comm]

/-- Every entry of the canonical buffer map was inserted at instant 0. -/
lemma canon_seen (ttl K : Nat) (cs : List PremintCandidate) :
    ∀ e ∈ (canonBuf ttl K cs).map, e.2.2.1 = 0 := by
  intro e he
  obtain ⟨p, _, rfl⟩ := List.mem_map.mp he
  rfl

/-- The canonical buffer satisfies the structural invariant. -/
lemma canon_sInv (ttl K : Nat) (hK : 1 ≤ K) (cs : List PremintCandidate)
    (hnd : (cs.map PremintCandidate.mint).Nodup) : SInv (canonBuf ttl K cs) := by
  refine ⟨?_, ?_, ?_, hK⟩
  · show (canonHeld cs K).map (fun p => (p.2.mint, p.1))
      = ((canonHeld cs K).map (fun p => (p.2.mint, (p.2, 0, p.1)))).map proj
    rw [List.map_map]
    rfl
  · show (((canonHeld cs K).map (fun p => (p.2.mint, (p.2, 0, p.1)))).map Prod.fst).Nodup
    rw [List.map_map]
    have : (Prod.fst ∘ fun p : Nat × PremintCandidate => (p.2.mint, (p.2, 0, p.1)))
        = fun p : Nat × PremintCandidate => p.2.mint := rfl
    rw [this, canonHeld_keys]
    exact (List.drop_sublist _ _).nodup hnd
  · show ((canonHeld cs K).map (fun p => (p.2.mint, (p.2, 0, p.1)))).length ≤ K
    rw [List.length_map, canonHeld_length]
    omega

/-- The keys of the canonical buffer map, as Prod.fst of entries. -/
lemma canon_map_keys (ttl K : Nat) (cs : List PremintCandidate) :
    (canonBuf ttl K cs).map.map Prod.fst
      = (cs.map PremintCandidate.mint).drop (cs.length - K) := by
  show ((canonHeld cs K).map (fun p => (p.2.mint, (p.2, 0, p.1)))).map Prod.fst
      = _
  rw [List.map_map]
  have : (Prod.fst ∘ fun p : Nat × PremintCandidate => (p.2.mint, (p.2, 0, p.1)))
      = fun p : Nat × PremintCandidate => p.2.mint := rfl
  rw [this, canonHeld_keys]

/-- Eviction on a buffer satisfying the invariant with a nonempty map
removes exactly the front entry on both sides. -/
lemma evictOldest_eq (b : CandidateBuffer) (h : SInv b)
    (e : Nat × (PremintCandidate × Nat × Nat))
    (t : List (Nat × (PremintCandidate × Nat × Nat))) (hmap : b.map = e :: t) :
    b.evictOldest = { b with map := t, insertion_order := t.map proj } := by
  obtain ⟨hio, hnd, _hlen, _hmax⟩ := h
  have hndc : ((e :: t).map Prod.fst).Nodup := hmap ▸ hnd
  rw [List.map_cons] at hndc
  have hkey : e.1 ∉ t.map Prod.fst := (List.nodup_cons.mp hndc).1
  unfold evictOldest
  rw [hio, hmap, List.map_cons]
  simp only [proj, List.head?_cons, List.tail_cons]
  rw [filter_cons_head e t hkey]

/-- Pushing a fresh candidate into the canonical buffer yields the
canonical buffer of the extended history. -/
lemma push_canon (ttl K : Nat) (hK : 1 ≤ K) (httl : ttl ≠ 0)
    (cs : List PremintCandidate) (c : PremintCandidate)
    (hnd : (cs.map PremintCandidate.mint).Nodup)
    (hfresh : c.mint ∉ cs.map PremintCandidate.mint) :
    ((canonBuf ttl K cs).push c 0).2 = canonBuf ttl K (cs ++ [c]) := by
  have hSI := canon_sInv ttl K hK cs hnd
  unfold push
  rw [cleanup_noop _ (show (canonBuf ttl K cs).ttl ≠ 0 from httl) (canon_seen ttl K cs)]
  unfold pushCore
  have hdup : (canonBuf ttl K cs).map.any (fun e => e.1 == c.mint) = false := by
    rw [List.any_eq_false]
    intro e he
    have h1 : e.1 ∈ (canonBuf ttl K cs).map.map Prod.fst :=
      List.mem_map_of_mem Prod.fst he
    rw [canon_map_keys] at h1
    have h2 : e.1 ∈ cs.map PremintCandidate.mint := List.mem_of_mem_drop h1
    simp only [beq_iff_eq]
    intro heq
    exact hfresh (heq ▸ h2)
  simp only [hdup, Bool.false_eq_true, if_false]
  have hmaplen : (canonBuf ttl K cs).map.length = cs.length - (cs.length - K) := by
    show ((canonHeld cs K).map _).length = _
    rw [List.length_map, canonHeld_length]
  by_cases hcase : cs.length < K
  · have hcond : ¬ ((canonBuf ttl K cs).max_size ≤ (canonBuf ttl K cs).map.length ∧
        0 < (canonBuf ttl K cs).max_size) := by
      rw [hmaplen]
      show ¬ (K ≤ cs.length - (cs.length - K) ∧ 0 < K)
      omega
    rw [if_neg hcond]
    unfold canonBuf
    rw [canonHeld_small cs K (by omega), canonHeld_append_small cs c K (by omega)]
    simp [List.map_append]
  · have hcond : (canonBuf ttl K cs).max_size ≤ (canonBuf ttl K cs).map.length ∧
        0 < (canonBuf ttl K cs).max_size := by
      rw [hmaplen]
      show K ≤ cs.length - (cs.length - K) ∧ 0 < K
      omega
    rw [if_pos hcond]
    have hheldpos : 0 < (canonHeld cs K).length := by
      rw [canonHeld_length]
      omega
    obtain ⟨h0, htl, hheld⟩ : ∃ h0 htl, canonHeld cs K = h0 :: htl := by
      cases hh : canonHeld cs K with
      | nil =>
        rw [hh] at hheldpos
        simp at hheldpos
      | cons h0 htl => exact ⟨h0, htl, rfl⟩
    have hmapeq : (canonBuf ttl K cs).map
        = (h0.2.mint, (h0.2, 0, h0.1)) ::
            htl.map (fun p => (p.2.mint, (p.2, 0, p.1))) := by
      show (canonHeld cs K).map _ = _
      rw [hheld, List.map_cons]
    rw [evictOldest_eq _ hSI _ _ hmapeq]
    dsimp only
    unfold canonBuf
    rw [canonHeld_append_big cs c K hK (by omega), hheld]
    simp [List.map_append, List.map_map]
    intro a b _hab
    rfl

/-- Pushing a duplicate-free history of candidates into a fresh buffer at
instant 0 with a positive TTL produces the canonical buffer. -/
lemma pushAll_canon (ttl K : Nat) (hK : 1 ≤ K) (httl : ttl ≠ 0)
    (cs : List PremintCandidate)
    (hnd : (cs.map PremintCandidate.mint).Nodup) :
    pushAll (new ttl K) cs 0 = canonBuf ttl K cs := by
  induction cs using List.reverseRecOn with
  | nil =>
    have hC : canonBuf ttl K [] = new ttl K := by
      unfold canonBuf canonHeld new
      have : ¬ K = 0 := by omega
      simp [this]
    rw [hC]
    rfl
  | append_singleton cs c ih =>
    rw [List.map_append] at hnd
    have hnd' : (cs.map PremintCandidate.mint).Nodup := (List.nodup_append.mp hnd).1
    have hfresh : c.mint ∉ cs.map PremintCandidate.mint := by
      intro hmem
      exact (List.nodup_append.mp hnd).2.2 hmem (by simp)
    unfold pushAll
    rw [List.foldl_append, List.foldl_cons, List.foldl_nil]
    have hfold : List.foldl (fun b c => (b.push c 0).2) (new ttl K) cs
        = pushAll (new ttl K) cs 0 := rfl
    rw [hfold, ih hnd']
    exact push_canon ttl K hK httl cs c hnd' hfresh

/-- pop_best on an empty buffer whose entries cannot expire returns none
and leaves the buffer unchanged. -/
lemma popBest_nil (b : CandidateBuffer) (httl : b.ttl ≠ 0)
    (hseen : ∀ e ∈ b.map, e.2.2.1 = 0) (hmap : b.map = [])
    (hio : b.insertion_order = []) : b.popBest 0 = (none, b) := by
  unfold popBest
  rw [cleanup_noop b httl hseen]
  dsimp only
  rw [hio, hmap]
  show (none, { b with map := [], insertion_order := [] })
      = (none, b)
  rw [← hmap, ← hio]

/-- pop_best on a nonempty buffer in canonical shape pops the front entry
of both structures and returns its candidate. -/
lemma popBest_cons (b : CandidateBuffer)
    (e : Nat × (PremintCandidate × Nat × Nat))
    (t : List (Nat × (PremintCandidate × Nat × Nat)))
    (hmap : b.map = e :: t) (hio : b.insertion_order = b.map.map proj)
    (hnd : (b.map.map Prod.fst).Nodup) (hseen : ∀ x ∈ b.map, x.2.2.1 = 0)
    (httl : b.ttl ≠ 0) :
    b.popBest 0 = (some e.2.1, { b with map := t, insertion_order := t.map proj }) := by
  unfold popBest
  rw [cleanup_noop b httl hseen]
  dsimp only
  rw [hio, hmap, popLoop_cons_of_nodup e t (hmap ▸ hnd)]

/-- Popping n times from a buffer in canonical shape returns the first n
candidates of the map in order and drops them from both structures. -/
lemma popN_canon (n : Nat) :
    ∀ b : CandidateBuffer, b.insertion_order = b.map.map proj →
      (b.map.map Prod.fst).Nodup → (∀ x ∈ b.map, x.2.2.1 = 0) → b.ttl ≠ 0 →
      (b.popN n).1 = (b.map.map (fun e => e.2.1)).take n ∧
      (b.popN n).2.map = b.map.drop n ∧
      (b.popN n).2.insertion_order = (b.map.drop n).map proj ∧
      (b.popN n).2.ttl = b.ttl ∧
      (∀ x ∈ (b.popN n).2.map, x.2.2.1 = 0) ∧
      ((b.popN n).2.map.map Prod.fst).Nodup := by
  induction n with
  | zero =>
    intro b hio hnd hseen httl
    refine ⟨rfl, by simp [popN], ?_, rfl, ?_, ?_⟩
    · show b.insertion_order = (b.map.drop 0).map proj
      rw [List.drop_zero, hio]
    · simpa [popN] using hseen
    · simpa [popN] using hnd
  | succ n ih =>
    intro b hio hnd hseen httl
    cases hm : b.map with
    | nil =>
      have hstep := popBest_nil b httl hseen hm (by rw [hio, hm]; rfl)
      unfold popN
      rw [hstep]
      dsimp only
      obtain ⟨ih1, ih2, ih3, ih4, ih5, ih6⟩ := ih b hio hnd hseen httl
      rw [hm] at ih1 ih2 ih3
      exact ⟨by simpa using ih1, by simpa using ih2, by simpa using ih3, ih4, ih5, ih6⟩
    | cons e t =>
      have hstep := popBest_cons b e t hm hio hnd hseen httl
      unfold popN
      rw [hstep]
      dsimp only
      have hseent : ∀ x ∈ t, x.2.2.1 = 0 := fun x hx =>
        hseen x (by rw [hm]; exact List.mem_cons_of_mem e hx)
      have hndt : (t.map Prod.fst).Nodup := by
        rw [hm, List.map_cons] at hnd
        exact (List.nodup_cons.mp hnd).2
      obtain ⟨ih1, ih2, ih3, ih4, ih5, ih6⟩ :=
        ih { b with map := t, insertion_order := t.map proj } rfl hndt hseent httl
      refine ⟨?_, ?_, ?_, ih4, ih5, ih6⟩
      · rw [ih1]
        simp
      · rw [ih2]
        rfl
      · rw [ih3]
        rfl

end CandidateBuffer

/-- Claim C6: a buffer of capacity K at least 1 receiving K + 1 distinct
candidates within TTL evicts exactly the oldest entry, keeping size K with
exactly the later K mints; and a capacity of 0 is normalized to 1. -/
theorem c6_capacity_eviction (K ttl : Nat) (cs : List PremintCandidate)
    (hK : 1 ≤ K) (httl : 1 ≤ ttl) (hlen : cs.length = K + 1)
    (hnd : (cs.map PremintCandidate.mint).Nodup) :
    (CandidateBuffer.pushAll (CandidateBuffer.new ttl K) cs 0).map.length = K ∧
    (CandidateBuffer.pushAll (CandidateBuffer.new ttl K) cs 0).map.map Prod.fst
      = (cs.map PremintCandidate.mint).tail ∧
    ∀ t2, CandidateBuffer.new t2 0 = CandidateBuffer.new t2 1 := by
  rw [CandidateBuffer.pushAll_canon ttl K hK (by omega) cs hnd]
  refine ⟨?_, ?_, ?_⟩
  · show ((CandidateBuffer.canonHeld cs K).map _).length = K
    rw [List.length_map, CandidateBuffer.canonHeld_length]
    omega
  · rw [CandidateBuffer.canon_map_keys, hlen]
    have h1 : K + 1 - K = 1 := by omega
    rw [h1, List.drop_one]
  · intro t2
    rfl

theorem c6_capacity_eviction_witness :
    (CandidateBuffer.pushAll (CandidateBuffer.new 10 2)
        [cand 1, cand 2, cand 3] 0).map.length = 2 ∧
    (CandidateBuffer.pushAll (CandidateBuffer.new 10 2)
        [cand 1, cand 2, cand 3] 0).map.map Prod.fst
      = ([cand 1, cand 2, cand 3].map PremintCandidate.mint).tail ∧
    ∀ t2, CandidateBuffer.new t2 0 = CandidateBuffer.new t2 1 :=
  c6_capacity_eviction 2 10 [cand 1, cand 2, cand 3]
    (by decide) (by decide) (by decide) (by decide)

/-- Claim C7: successive pop_best calls return the surviving entries in
non-decreasing insertion order (the suffix of the pushed history that
survived capacity eviction, in push order); after N pushes of distinct
fresh candidates and N pops the buffer is empty, and one more pop_best
returns none. -/
theorem c7_pop_best_order_and_drain (K ttl N : Nat) (cs : List PremintCandidate)
    (hK : 1 ≤ K) (httl : 1 ≤ ttl) (hN : cs.length = N)
    (hnd : (cs.map PremintCandidate.mint).Nodup) :
    ((CandidateBuffer.pushAll (CandidateBuffer.new ttl K) cs 0).popN N).1
        = cs.drop (N - K) ∧
    ((CandidateBuffer.pushAll (CandidateBuffer.new ttl K) cs 0).popN N).2.map = [] ∧
    ((CandidateBuffer.pushAll (CandidateBuffer.new ttl K) cs 0).popN N).2.insertion_order
        = [] ∧
    (((CandidateBuffer.pushAll (CandidateBuffer.new ttl K) cs 0).popN N).2.popBest 0).1
        = none := by
  rw [CandidateBuffer.pushAll_canon ttl K hK (by omega) cs hnd]
  have hSI := CandidateBuffer.canon_sInv ttl K hK cs hnd
  obtain ⟨hio, hnd2, hlen2, _⟩ := hSI
  obtain ⟨h1, h2, h3, h4, h5, h6⟩ :=
    CandidateBuffer.popN_canon N (CandidateBuffer.canonBuf ttl K cs) hio hnd2
      (CandidateBuffer.canon_seen ttl K cs) (by show ttl ≠ 0; omega)
  have hmlen : (CandidateBuffer.canonBuf ttl K cs).map.length ≤ N := by
    show ((CandidateBuffer.canonHeld cs K).map _).length ≤ N
    rw [List.length_map, CandidateBuffer.canonHeld_length]
    omega
  have hmape : (CandidateBuffer.canonBuf ttl K cs).map.map (fun e => e.2.1)
      = cs.drop (N - K) := by
    show ((CandidateBuffer.canonHeld cs K).map _).map _ = _
    rw [List.map_map]
    have hcomp : ((fun e : Nat × (PremintCandidate × Nat × Nat) => e.2.1) ∘
        fun p : Nat × PremintCandidate => (p.2.mint, (p.2, 0, p.1)))
        = Prod.snd := rfl
    rw [hcomp]
    unfold CandidateBuffer.canonHeld
    rw [List.map_drop, List.enumFrom_map_snd, hN]
  have hm0 : (CandidateBuffer.canonBuf ttl K cs).map.drop N = [] :=
    List.drop_eq_nil_of_le hmlen
  refine ⟨?_, ?_, ?_, ?_⟩
  · rw [h1]
    rw [List.take_of_length_le (by rw [List.length_map]; exact hmlen), hmape]
  · rw [h2, hm0]
  · rw [h3, hm0]
    rfl
  · have := CandidateBuffer.popBest_nil _
      (by rw [h4]; show ttl ≠ 0; omega) h5 (by rw [h2, hm0])
      (by rw [h3, hm0]; rfl)
    rw [this]

theorem c7_pop_best_order_and_drain_witness :
    ((CandidateBuffer.pushAll (CandidateBuffer.new 10 2)
        [cand 1, cand 2, cand 3] 0).popN 3).1
      = [cand 1, cand 2, cand 3].drop 1 ∧
    ((CandidateBuffer.pushAll (CandidateBuffer.new 10 2)
        [cand 1, cand 2, cand 3] 0).popN 3).2.map = [] ∧
    (((CandidateBuffer.pushAll (CandidateBuffer.new 10 2)
        [cand 1, cand 2, cand 3] 0).popN 3).2.popBest 0).1 = none := by
  have h := c7_pop_best_order_and_drain 2 10 3 [cand 1, cand 2, cand 3]
    (by decide) (by decide) (by decide) (by decide)
  exact ⟨h.1, h.2.1, h.2.2.2⟩

end SnifferBot

